import Mathlib

/-!
Verification of the gohatch template-materialization pipeline.

The Go source is shallowly embedded: pure string manipulation is translated
to executable Lean functions on `String` (represented through its `data :
List Char`, adequate byte-for-byte for the ASCII inputs considered here),
stateful filesystem code becomes explicit state passing over lists of path
entries, and fallible code returns `Except`/`Option`.  External library
behaviour (go-git, golang.org/x/mod, go/parser) is injected as parameters
or modelled from the spec where noted.
-/

/-! ## String helpers

Executable counterparts of the Go standard-library string operations used by
the source.  They operate on `String.data` so that every definition is
structural and reduces inside `decide`. -/

/-- Models `strings.HasPrefix p s` / Go's `strings.HasPrefix(s, p)`. -/
def strStartsWith (s p : String) : Bool :=
  p.data.isPrefixOf s.data

/-- Models `strings.HasSuffix(s, p)`. -/
def strEndsWith (s p : String) : Bool :=
  p.data.isSuffixOf s.data

/-- Drops the first `n` characters, used to model `strings.TrimPrefix(s, p)`
after a positive prefix test (`n = p.length`). -/
def strDrop (s : String) (n : Nat) : String :=
  ⟨s.data.drop n⟩

/-- Takes the first `n` characters of a string. -/
def strTake (s : String) (n : Nat) : String :=
  ⟨s.data.take n⟩

/-- Length of a string in characters (equal to bytes for ASCII input). -/
def strLen (s : String) : Nat :=
  s.data.length

/-- Index of the last occurrence of `c`, models Go's `strings.LastIndex` for
a one-character separator. -/
def lastIdx : List Char → Char → Option Nat
  | [], _ => none
  | c :: rest, t =>
    match lastIdx rest t with
    | some j => some (j + 1)
    | none => if c == t then some 0 else none

/-- Splits a character list at every occurrence of `sep`; models
`strings.Split` for a one-character separator. -/
def splitOnChar : List Char → Char → List (List Char)
  | [], _ => [[]]
  | c :: rest, sep =>
    match splitOnChar rest sep with
    | [] => [[]]
    | cur :: done =>
      if c == sep then [] :: cur :: done else (c :: cur) :: done

/-- Path split into `/`-separated segments. -/
def splitPath (s : String) : List String :=
  (splitOnChar s.data '/').map (fun l => ⟨l⟩)

/-- Rejoins `/`-separated segments. -/
def joinSegs : List String → String
  | [] => ""
  | [s] => s
  | s :: rest => s ++ "/" ++ joinSegs rest

/-- Models Go's `strings.ReplaceAll` for a nonempty pattern: scans left to
right, replaces each non-overlapping occurrence and resumes after the
replacement text.  The fuel argument (instantiated with the scanned list's
length) makes the recursion structural; it never runs out because a nonempty
pattern consumes at least one character per match.  All patterns in this
development are placeholder tokens `__Key__`, hence nonempty. -/
def replaceAllAux (pat rep : List Char) : Nat → List Char → List Char
  | 0, s => s
  | _ + 1, [] => []
  | fuel + 1, c :: rest =>
    if pat.isPrefixOf (c :: rest) then
      rep ++ replaceAllAux pat rep fuel ((c :: rest).drop pat.length)
    else
      c :: replaceAllAux pat rep fuel rest

/-- Models `strings.ReplaceAll s pat rep` (and `bytes.ReplaceAll`) for a
nonempty `pat`; returns `s` unchanged for the empty pattern, which no caller
in this development produces. -/
def replaceAllS (s pat rep : String) : String :=
  if pat.data.isEmpty then s
  else ⟨replaceAllAux pat.data rep.data s.data.length s.data⟩

/-- Decidable equality on `Except`, needed to evaluate the models' results
inside `decide`. -/
def exceptEqDec {ε α : Type} [DecidableEq ε] [DecidableEq α] : DecidableEq (Except ε α)
  | .error e, .error f =>
    if h : e = f then isTrue (congrArg Except.error h)
    else isFalse (fun he => h (Except.error.inj he))
  | .error _, .ok _ => isFalse (fun he => Except.noConfusion he)
  | .ok _, .error _ => isFalse (fun he => Except.noConfusion he)
  | .ok a, .ok b =>
    if h : a = b then isTrue (congrArg Except.ok h)
    else isFalse (fun he => h (Except.ok.inj he))

instance {ε α : Type} [DecidableEq ε] [DecidableEq α] : DecidableEq (Except ε α) :=
  exceptEqDec

namespace Source

/-! ## Reference Resolver (internal/source: Parse, splitVersion, buildGitURL)

The only impure ingredient of `Parse` is the `os.Stat` existing-directory
test; it is injected as a `dirExists : String → Bool` parameter. -/

/-- Tagged union of the two `Source` implementations, `LocalSource{Path}`
and `GitSource{URL, Version}`. -/
inductive Src where
  | localDir (path : String)
  | gitRemote (url : String) (version : String)
deriving DecidableEq

/-- Models `splitVersion`: splits `"path@version"` at the last `@` into path
and version components; no `@` gives an empty version. -/
def splitVersion (input : String) : String × String :=
  match lastIdx input.data '@' with
  | some idx => (strTake input idx, strDrop input (idx + 1))
  | none => (input, "")

/-- Models `buildGitURL`: `strings.SplitN(path, "/", 2)` yields fewer than
two parts exactly when the path has no slash, in which case the GitHub
shorthand prefix applies; otherwise a dot in the first segment marks a host
to be prefixed with `https://` only, and a dotless first segment again gets
the GitHub prefix. -/
def buildGitURL (path : String) : String :=
  match splitOnChar path.data '/' with
  | [] => "https://github.com/" ++ path
  | [_] => "https://github.com/" ++ path
  | seg0 :: _ =>
    if seg0.contains '.' then "https://" ++ path
    else "https://github.com/" ++ path

/-- Local-source test of `Parse`: the path part starts with `./` or `/`, or
exists as a directory on disk (injected `dirExists`). -/
def isLocalPath (dirExists : String → Bool) (path : String) : Bool :=
  strStartsWith path "./" || strStartsWith path "/" || dirExists path

/-- Models `Parse`: splits off the version marker, classifies the path part
as local (erroring on a nonempty marker) or remote (expanding the URL). -/
def Parse (dirExists : String → Bool) (input : String) : Except String Src :=
  let pv := splitVersion input
  if strStartsWith pv.1 "./" || strStartsWith pv.1 "/" then
    if pv.2 ≠ "" then .error "version specifier not supported for local paths"
    else .ok (.localDir pv.1)
  else if dirExists pv.1 then
    if pv.2 ≠ "" then .error "version specifier not supported for local paths"
    else .ok (.localDir pv.1)
  else
    .ok (.gitRemote (buildGitURL pv.1) pv.2)

/-- Evaluates to `true` exactly on a successful parse producing a
`gitRemote`. -/
def isRemoteResult : Except String Src → Bool
  | .ok (.gitRemote _ _) => true
  | _ => false

end Source

namespace Source

/-! ## Reference-kind classification and acquisition (resolveRefType, Fetch)

go-git is external: the remote listing result is injected as an
`Except Unit (List String)` (the full reference names, e.g.
`refs/tags/v1`), and the outcomes of `PlainCloneContext` and
`Worktree().Checkout` are injected as boolean oracles.  `Fetch` is modelled
as the trace of git operations it performs. -/

/-- Models `plumbing.NewTagReferenceName`. -/
def tagRefName (version : String) : String :=
  "refs/tags/" ++ version

/-- Models `plumbing.NewBranchReferenceName`. -/
def branchRefName (version : String) : String :=
  "refs/heads/" ++ version

/-- Models the `refType` enumeration. -/
inductive RefType where
  | unknown
  | tag
  | branch
deriving DecidableEq

/-- Loop body of `resolveRefType`: scans the references in list order,
checking each against the tag name and then the branch name. -/
def resolveRefsLoop (refs : List String) (tagRef branchRef : String) : RefType :=
  match refs with
  | [] => .unknown
  | r :: rest =>
    if r == tagRef then .tag
    else if r == branchRef then .branch
    else resolveRefsLoop rest tagRef branchRef

/-- Models `resolveRefType`: a failed remote listing yields `unknown`;
otherwise the reference list is scanned in order. -/
def resolveRefType (listResult : Except Unit (List String)) (version : String) : RefType :=
  match listResult with
  | .error _ => .unknown
  | .ok refs => resolveRefsLoop refs (tagRefName version) (branchRefName version)

/-- Models `git.CloneOptions` as configured by `Fetch`: `depth = 0` is the
Go zero value, meaning an unbounded (full) clone. -/
structure CloneOpts where
  url : String
  depth : Nat
  singleBranch : Bool
  referenceName : Option String
deriving DecidableEq

/-- Trace element: a git operation performed by `Fetch`. -/
inductive GitOp where
  | clone (opts : CloneOpts)
  | checkout (rev : String)
  | removeGitDir
deriving DecidableEq

/-- Models `GitSource.Fetch` as the trace of operations performed on the
destination.  `cloneOK` and `checkoutOK` inject the success of the external
clone and checkout calls (a failing `Worktree()` is folded into
`checkoutOK`); `removeGitDir` is recorded as performed on the success
paths. -/
def GitFetch (url version : String) (listResult : Except Unit (List String))
    (cloneOK : CloneOpts → Bool) (checkoutOK : String → Bool) :
    Except String (List GitOp) :=
  let base : CloneOpts := ⟨url, 0, false, none⟩
  if version == "" then
    let opts : CloneOpts := ⟨url, 1, false, none⟩
    if cloneOK opts then .ok [.clone opts, .removeGitDir]
    else .error "cloning repository"
  else
    match resolveRefType listResult version with
    | .tag =>
      let opts : CloneOpts := ⟨url, 1, true, some (tagRefName version)⟩
      if cloneOK opts then .ok [.clone opts, .removeGitDir]
      else .error "cloning repository"
    | .branch =>
      let opts : CloneOpts := ⟨url, 1, true, some (branchRefName version)⟩
      if cloneOK opts then .ok [.clone opts, .removeGitDir]
      else .error "cloning repository"
    | .unknown =>
      if cloneOK base then
        if checkoutOK version then .ok [.clone base, .checkout version, .removeGitDir]
        else .error ("checking out " ++ version)
      else .error "cloning repository"

end Source

namespace Rewrite

/-! ## Variable substitution in file contents (replaceVariablesInFile)

The Go-map iteration over `vars` has unspecified order; the model takes the
variables as an explicit list and the theorems quantify over its order. -/

/-- Placeholder token for a variable name, `__Key__`. -/
def placeholder (key : String) : String :=
  "__" ++ key ++ "__"

/-- One step of the loop body of `replaceVariablesInFile`: replaces every
occurrence of one variable's placeholder. -/
def replaceVarStep (data : String) (kv : String × String) : String :=
  replaceAllS data (placeholder kv.1) kv.2

/-- Models the replacement loop of `replaceVariablesInFile` on the file's
content, iterating the variables in the order of the given list. -/
def replaceVarsContent (data : String) (vars : List (String × String)) : String :=
  vars.foldl replaceVarStep data

end Rewrite

namespace Rewrite

/-! ## Path Renamer (paths.go: RenamePaths, collectPathsToRename,
updatePathWithRenames)

The filesystem is modelled as the list of existing absolute paths (clean,
`/`-separated, strictly below the root directory).  `os.Rename` becomes a
state transformer that fails when the source path does not exist — so a
mis-ordered rename surfaces as `none`.  `filepath.WalkDir`'s visiting order
is supplied explicitly as the list of paths in walk order, and the
unspecified Go-map enumeration order of the collected renames is a
parameter of the theorems. -/

/-- Number of path separators, the sort key of phase 2 (`strings.Count`
with `os.PathSeparator`). -/
def depthOf (p : String) : Nat :=
  p.data.count '/'

/-- Final path segment; models `d.Name()` / `filepath.Base` for clean
paths. -/
def baseName (p : String) : String :=
  (splitPath p).getLastD ""

/-- Everything before the final segment; models `filepath.Dir` for clean
paths strictly below the root. -/
def dirName (p : String) : String :=
  joinSegs (splitPath p).dropLast

/-- Path made relative to `dir`; models `filepath.Rel dir p` for `p`
strictly below `dir`. -/
def relTo (dir p : String) : String :=
  strDrop p (strLen dir + 1)

/-- Entry-name substitution of the collection walk: every `__Key__`
occurrence is replaced for every variable, iterating `vars` in list
order. -/
def newNameFor (name : String) (vars : List (String × String)) : String :=
  vars.foldl (fun n kv => replaceAllS n ("__" ++ kv.1 ++ "__") kv.2) name

/-- Models `collectPathsToRename` over the walk order `walk` (which already
reflects the pruning of `vendor`/`.git` directories): records an old→new
pair for every entry whose name changes under substitution. -/
def collectPathsToRename (walk : List String) (vars : List (String × String)) :
    List (String × String) :=
  walk.filterMap (fun path =>
    let name := baseName path
    let newName := newNameFor name vars
    if newName ≠ name then some (path, dirName path ++ "/" ++ newName) else none)

/-- Splitting on a nonempty multi-character separator, models
`strings.Split` as used with the `" → "` separator; the fuel (instantiated
with the scanned list's length) makes the recursion structural. -/
def splitOnListAux (sep : List Char) : Nat → List Char → List (List Char)
  | 0, s => [s]
  | _ + 1, [] => [[]]
  | fuel + 1, c :: rest =>
    if sep.isPrefixOf (c :: rest) then
      [] :: splitOnListAux sep fuel ((c :: rest).drop sep.length)
    else
      match splitOnListAux sep fuel rest with
      | [] => [[c]]
      | cur :: done => (c :: cur) :: done

/-- String wrapper for `splitOnListAux`; models `strings.Split s sep` for
nonempty `sep`. -/
def splitOnStr (s sep : String) : List String :=
  (splitOnListAux sep.data s.data.length s.data).map (fun l => ⟨l⟩)

/-- Models `updatePathWithRenames`: replays the already-applied renames
(formatted `oldRel ++ " → " ++ newRel`) over `path`, substituting a renamed
old absolute path when it is `path` itself or an ancestor of it. -/
def updatePathWithRenames (path : String) (renamedPaths : List String) (baseDir : String) : String :=
  renamedPaths.foldl (fun path rename =>
    match splitOnStr rename " → " with
    | [oldRel, newRel] =>
      let oldAbs := baseDir ++ "/" ++ oldRel
      let newAbs := baseDir ++ "/" ++ newRel
      if strStartsWith path (oldAbs ++ "/") then newAbs ++ strDrop path (strLen oldAbs)
      else if path == oldAbs then newAbs
      else path
    | _ => path) path

/-- Insertion component of the depth sort. -/
def insertByDepth (p : String × String) : List (String × String) → List (String × String)
  | [] => [p]
  | q :: rest =>
    if depthOf p.1 > depthOf q.1 then p :: q :: rest
    else q :: insertByDepth p rest

/-- Deepest-first sort of the collected pairs; models the
`sort.Slice` call with comparator `depth i > depth j` (entries of equal
depth may appear in any order there — the theorems quantify over the input
enumeration, and the scenario's depths are distinct). -/
def sortByDepth : List (String × String) → List (String × String)
  | [] => []
  | p :: rest => insertByDepth p (sortByDepth rest)

/-- Models `os.Rename old new` on the path-list filesystem: fails when
`old` does not exist, otherwise moves the entry and every path beneath
it. -/
def fsRename (fs : List String) (oldPath newPath : String) : Option (List String) :=
  if fs.contains oldPath then
    some (fs.map (fun p =>
      if p == oldPath then newPath
      else if strStartsWith p (oldPath ++ "/") then newPath ++ strDrop p (strLen oldPath)
      else p))
  else none

/-- Phase-2 application loop of `RenamePaths`: for each pending pair in
sorted order, remaps both paths against the renames already applied,
performs the rename, and records `oldRel → newRel`. -/
def applyRenames (dir : String) (renamedPaths : List String) (fs : List String) :
    List (String × String) → Option (List String × List String)
  | [] => some (renamedPaths, fs)
  | (oldPath0, newPath0) :: rest =>
    let oldPath := updatePathWithRenames oldPath0 renamedPaths dir
    let newPath := updatePathWithRenames newPath0 renamedPaths dir
    match fsRename fs oldPath newPath with
    | none => none
    | some fs' =>
      applyRenames dir (renamedPaths ++ [relTo dir oldPath ++ " → " ++ relTo dir newPath]) fs' rest

/-- Models `RenamePaths`: `pending` is the collected rename map enumerated
in an arbitrary Go-map order (the theorems tie it to
`collectPathsToRename`); returns the reported rename list and the resulting
filesystem, or `none` when some `os.Rename` fails. -/
def RenamePaths (dir : String) (vars : List (String × String))
    (pending : List (String × String)) (fs : List String) :
    Option (List String × List String) :=
  if vars.isEmpty then some ([], fs)
  else applyRenames dir [] fs (sortByDepth pending)

end Rewrite

namespace Rewrite

/-! ## Identifier Rewriter and Variable Substituter over a tree model
(module.go, variables.go, patterns.go)

A file is a path (segments relative to the tree root), a content and a
permission mode.  `filepath.WalkDir` visits the files in list order; its
`SkipDir` pruning of a directory named `vendor` (or `.git`) is modelled by
the ancestor-segment test `underDir`.  Go-source contents are represented
by their parse result, a list of import path strings plus an opaque
remainder — modelled from the spec: `go/parser`/`go/format` are external,
and §4.4 describes the syntax-aware pass purely through the structured
reference declarations it rewrites while preserving everything else. -/

/-- Content of a file: a parsed Go source file (its import paths and the
rest of the text), or plain text bytes. -/
inductive FileContent where
  | goSrc (imports : List String) (rest : String)
  | text (data : String)
deriving DecidableEq

/-- A file of the tree: path segments relative to the root, content, and
permission mode bits. -/
structure FsFile where
  path : List String
  content : FileContent
  mode : Nat
deriving DecidableEq

/-- Does a proper ancestor directory of `p` have the given name?  Models
the effect of returning `filepath.SkipDir` from the walk callback on
directories with that name. -/
def underDir (name : String) (p : List String) : Bool :=
  p.dropLast.contains name

/-- Last path segment, the `d.Name()` of the walked file. -/
def lastSeg (p : List String) : String :=
  p.getLastD ""

/-- Relative path of a file as recorded in the modified-files lists
(`filepath.Rel(dir, path)`). -/
def relPath (p : List String) : String :=
  joinSegs p

/-- Models `parseFilePatterns`: strips one leading dot from each pattern
and drops empties; the Go `map[string]bool` set becomes a list queried by
membership. -/
def parseFilePatterns (patterns : List String) : List String :=
  patterns.foldl (fun acc p =>
    let q := if strStartsWith p "." then strDrop p 1 else p
    if q ≠ "" then acc ++ [q] else acc) []

/-- Models `filepath.Ext`: the suffix starting at the final dot of the
name, or empty when the name has no dot. -/
def fileExt (name : String) : String :=
  match lastIdx name.data '.' with
  | some i => strDrop name i
  | none => ""

/-- Models `matchesFilePattern`: exact filename match, else bare-extension
match. -/
def matchesFilePattern (name : String) (patterns : List String) : Bool :=
  if patterns.contains name then true
  else
    let ext := fileExt name
    if ext ≠ "" then patterns.contains (strDrop ext 1)
    else false

/-- Import-path rewrite of `rewriteGoFile`: an import equal to the old
module or having it as a path prefix gets the prefix substituted; returns
the new value and whether it changed. -/
def rewriteImport (oldModule newModule imp : String) : String × Bool :=
  if imp == oldModule || strStartsWith imp (oldModule ++ "/") then
    (newModule ++ strDrop imp (strLen oldModule), true)
  else (imp, false)

/-- Models `rewriteGoFile` on a file's content: parses the file (a
non-Go-source content is a parse error, fatal per §4.4), rewrites every
matching import, and re-serializes only when something changed. -/
def rewriteGoFile (c : FileContent) (oldModule newModule : String) :
    Except String (Bool × FileContent) :=
  match c with
  | .text _ => .error "parsing"
  | .goSrc imports rest =>
    let results := imports.map (rewriteImport oldModule newModule)
    let modified := results.any (fun r => r.2)
    if modified then .ok (true, .goSrc (results.map (fun r => r.1)) rest)
    else .ok (false, c)

/-- Models `rewriteGoFiles`: walks the files in order, pruning directories
named `vendor` (and only those), processing every file whose path ends in
`.go`, writing a modified file back with its original mode.  Returns the
recorded relative paths and the resulting tree. -/
def rewriteGoFiles (files : List FsFile) (oldModule newModule : String) :
    Except String (List String × List FsFile) :=
  match files with
  | [] => .ok ([], [])
  | f :: rest =>
    if underDir "vendor" f.path then
      match rewriteGoFiles rest oldModule newModule with
      | .error e => .error e
      | .ok (ms, fs) => .ok (ms, f :: fs)
    else if !(strEndsWith (lastSeg f.path) ".go") then
      match rewriteGoFiles rest oldModule newModule with
      | .error e => .error e
      | .ok (ms, fs) => .ok (ms, f :: fs)
    else
      match rewriteGoFile f.content oldModule newModule with
      | .error e => .error e
      | .ok (modified, c') =>
        match rewriteGoFiles rest oldModule newModule with
        | .error e => .error e
        | .ok (ms, fs) =>
          if modified then .ok (relPath f.path :: ms, { f with content := c' } :: fs)
          else .ok (ms, f :: fs)

/-- Models `rewriteTextFile` on a file's content: plain byte replacement of
the old module string, written back (with original mode) only on change.
For a Go-source content the byte-level `bytes.ReplaceAll` acts on the
serialized file; it is modelled as the replacement applied inside each of
the import strings and the remainder, the two disjoint regions of the
serialization. -/
def rewriteTextFile (c : FileContent) (oldModule newModule : String) : Bool × FileContent :=
  match c with
  | .text d =>
    let nd := replaceAllS d oldModule newModule
    if nd = d then (false, c) else (true, .text nd)
  | .goSrc imports rest =>
    let ni := imports.map (fun i => replaceAllS i oldModule newModule)
    let nr := replaceAllS rest oldModule newModule
    if ni = imports ∧ nr = rest then (false, c) else (true, .goSrc ni nr)

/-- Models `rewriteExtraFiles`: walks the files in order, pruning
directories named `vendor` or `.git`, string-replacing in every file whose
name matches the normalized pattern set. -/
def rewriteExtraFiles (files : List FsFile) (oldModule newModule : String)
    (patterns : List String) : List String × List FsFile :=
  let patternSet := parseFilePatterns patterns
  files.foldr (fun f acc =>
    if underDir "vendor" f.path || underDir ".git" f.path then
      (acc.1, f :: acc.2)
    else if !matchesFilePattern (lastSeg f.path) patternSet then
      (acc.1, f :: acc.2)
    else
      match rewriteTextFile f.content oldModule newModule with
      | (true, c') => (relPath f.path :: acc.1, { f with content := c' } :: acc.2)
      | (false, _) => (acc.1, f :: acc.2)) ([], [])

/-- State of the tree seen by `Module`: the manifest and the other files.
Modelled from the spec: the go.mod manifest is represented by its declared
module path and its mode — golang.org/x/mod's `ParseLax`, `AddModuleStmt`
and `Format` are external, and §6 specifies that the manifest round-trips
through parse→modify→format disturbing only the declared identifier. -/
structure ModState where
  goModModule : String
  goModMode : Nat
  files : List FsFile
deriving DecidableEq

/-- Models `Module`: reads the declared module path, no-ops when it already
equals `newModule`, otherwise writes the manifest back with the fixed mode
`0o600`, rewrites imports in `.go` files and (for nonempty
`extraExtensions`) string-replaces in matching extra files.  The resulting
state is that of a successful run; on error the partially updated tree is
discarded by the caller and is not represented. -/
def Module (s : ModState) (newModule : String) (extraExtensions : List String) :
    Except String (List String × ModState) :=
  let oldModule := s.goModModule
  if oldModule == newModule then .ok ([], s)
  else
    match rewriteGoFiles s.files oldModule newModule with
    | .error e => .error e
    | .ok (goFiles, files1) =>
      let extra :=
        if extraExtensions.length > 0 then
          rewriteExtraFiles files1 oldModule newModule extraExtensions
        else ([], files1)
      .ok ("go.mod" :: (goFiles ++ extra.1),
           { goModModule := newModule, goModMode := 0o600, files := extra.2 })

/-- Models `replaceVariablesInFile` on a file's content: applies the
variable replacement loop and reports whether the bytes changed (written
back with original mode only then).  On a Go-source content the byte-level
replacement is modelled region-wise as in `rewriteTextFile`. -/
def replaceVariablesInFile (c : FileContent) (vars : List (String × String)) :
    Bool × FileContent :=
  match c with
  | .text d =>
    let nd := replaceVarsContent d vars
    if nd = d then (false, c) else (true, .text nd)
  | .goSrc imports rest =>
    let ni := imports.map (fun i => replaceVarsContent i vars)
    let nr := replaceVarsContent rest vars
    if ni = imports ∧ nr = rest then (false, c) else (true, .goSrc ni nr)

/-- Models `Variables`: no-op on an empty variable map; otherwise walks the
files (pruning `vendor` and `.git` directories), substituting in every file
matching the pattern set extended with the native `go` kind. -/
def Variables (files : List FsFile) (vars : List (String × String))
    (extraPatterns : List String) : List String × List FsFile :=
  if vars.isEmpty then ([], files)
  else
    let patternSet := parseFilePatterns extraPatterns ++ ["go"]
    files.foldr (fun f acc =>
      if underDir "vendor" f.path || underDir ".git" f.path then
        (acc.1, f :: acc.2)
      else if !matchesFilePattern (lastSeg f.path) patternSet then
        (acc.1, f :: acc.2)
      else
        match replaceVariablesInFile f.content vars with
        | (true, c') => (relPath f.path :: acc.1, { f with content := c' } :: acc.2)
        | (false, _) => (acc.1, f :: acc.2)) ([], [])

end Rewrite

open Source Rewrite

/-! ## Helper lemmas -/

theorem lastIdx_eq_none (l : List Char) (c : Char) (h : l.contains c = false) :
    lastIdx l c = none := by
  induction l with
  | nil => rfl
  | cons a rest ih =>
    simp only [List.contains_cons, Bool.or_eq_false_iff] at h
    have hne : (a == c) = false := by
      rcases h with ⟨h1, _⟩
      simp only [beq_eq_false_iff_ne] at h1 ⊢
      exact fun hac => h1 hac.symm
    simp [lastIdx, ih h.2, hne]

theorem lastIdx_append (p m : List Char) (c : Char) (h : m.contains c = false) :
    lastIdx (p ++ c :: m) c = some p.length := by
  induction p with
  | nil => simp [lastIdx, lastIdx_eq_none m c h]
  | cons a rest ih => simp [lastIdx, ih]

theorem splitVersion_append (path marker : String)
    (hm : marker.data.contains '@' = false) :
    splitVersion (path ++ "@" ++ marker) = (path, marker) := by
  have hdata : (path ++ "@" ++ marker).data = path.data ++ '@' :: marker.data := by
    simp [String.data_append]
  have h1 : lastIdx (path ++ "@" ++ marker).data '@' = some path.data.length := by
    rw [hdata]
    exact lastIdx_append path.data marker.data '@' hm
  unfold splitVersion
  rw [h1]
  show (strTake (path ++ "@" ++ marker) path.data.length,
        strDrop (path ++ "@" ++ marker) (path.data.length + 1)) = (path, marker)
  unfold strTake strDrop
  rw [hdata]
  congr 1
  · show String.mk ((path.data ++ '@' :: marker.data).take path.data.length) = path
    rw [List.take_left' rfl]
  · show String.mk ((path.data ++ '@' :: marker.data).drop (path.data.length + 1)) = marker
    have h2 : path.data ++ '@' :: marker.data = (path.data ++ ['@']) ++ marker.data := by simp
    rw [h2, List.drop_left' (by simp)]

theorem Parse_eq (dirExists : String → Bool) (input : String) :
    Parse dirExists input =
      (if isLocalPath dirExists (splitVersion input).1 then
        (if (splitVersion input).2 ≠ "" then
          Except.error "version specifier not supported for local paths"
        else Except.ok (Src.localDir (splitVersion input).1))
      else Except.ok (Src.gitRemote (buildGitURL (splitVersion input).1) (splitVersion input).2)) := by
  unfold Parse isLocalPath
  cases h1 : strStartsWith (splitVersion input).1 "./" <;>
    cases h2 : strStartsWith (splitVersion input).1 "/" <;>
      cases h3 : dirExists (splitVersion input).1 <;>
        simp [h1, h2, h3]

/-! ## C6 — splitting at the last `@` and URL expansion -/

/-- C6 counterexample: for the input `example.com` — whose first (and only)
segment contains a dot — the claim's first-segment rule demands the URL
`https://example.com`, but the code treats every slash-less path as
owner/repo shorthand and produces `https://github.com/example.com`. -/
theorem parse_single_segment_dotted_counterexample :
    Parse (fun _ => false) "example.com" =
      .ok (.gitRemote "https://github.com/example.com" "") ∧
    "example.com".data.contains '.' = true ∧
    Parse (fun _ => false) "example.com" ≠
      .ok (.gitRemote "https://example.com" "") := by
  refine ⟨by decide, by decide, by decide⟩

/-- C6 (amended): for a marker free of `@`, parsing `path@marker` recovers
`(path, marker)` by splitting at the last `@`; a non-local path part yields
a RemoteSource whose URL is the expansion of the path: `https://` is
prefixed when the path has at least two `/`-separated segments and its
first segment contains a dot, and otherwise — including every slash-less
path, even one containing a dot — the owner/repo shorthand prefix
`https://github.com/` applies; in particular `user/repo` (not an existing
directory) parses to the RemoteSource `https://github.com/user/repo` with
no marker. -/
theorem parse_split_and_url_expansion (dirExists : String → Bool) (path marker : String)
    (hm : marker.data.contains '@' = false)
    (hlocal : isLocalPath dirExists path = false)
    (hur : isLocalPath dirExists "user/repo" = false) :
    splitVersion (path ++ "@" ++ marker) = (path, marker) ∧
    Parse dirExists (path ++ "@" ++ marker) =
      .ok (.gitRemote (buildGitURL path) marker) ∧
    buildGitURL path =
      (match splitPath path with
       | seg0 :: _ :: _ =>
         if seg0.data.contains '.' then "https://" ++ path
         else "https://github.com/" ++ path
       | _ => "https://github.com/" ++ path) ∧
    Parse dirExists "user/repo" =
      .ok (.gitRemote "https://github.com/user/repo" "") := by
  have hsplit := splitVersion_append path marker hm
  refine ⟨hsplit, ?_, ?_, ?_⟩
  · rw [Parse_eq, hsplit]
    simp [hlocal]
  · unfold buildGitURL splitPath
    cases h : splitOnChar path.data '/' with
    | nil => rfl
    | cons seg0 rest =>
      cases rest with
      | nil => rfl
      | cons seg1 rest' => by_cases hdot : seg0.contains '.' <;> simp [hdot, List.contains]
  · have : splitVersion "user/repo" = ("user/repo", "") := by decide
    rw [Parse_eq, this]
    simp only [hur]
    decide

/-- C6 witness: the amended theorem applied at `host.com/x@v1` with no
directory existing on disk. -/
theorem parse_split_and_url_expansion_witness :
    splitVersion ("host.com/x" ++ "@" ++ "v1") = ("host.com/x", "v1") ∧
    Parse (fun _ => false) ("host.com/x" ++ "@" ++ "v1") =
      .ok (.gitRemote (buildGitURL "host.com/x") "v1") ∧
    buildGitURL "host.com/x" =
      (match splitPath "host.com/x" with
       | seg0 :: _ :: _ =>
         if seg0.data.contains '.' then "https://" ++ "host.com/x"
         else "https://github.com/" ++ "host.com/x"
       | _ => "https://github.com/" ++ "host.com/x") ∧
    Parse (fun _ => false) "user/repo" =
      .ok (.gitRemote "https://github.com/user/repo" "") :=
  parse_split_and_url_expansion (fun _ => false) "host.com/x" "v1"
    (by decide) (by decide) (by decide)

/-! ## C7 — a marker on a local source is a hard error -/

/-- C7: whenever the path part of the raw string is local (starts with
`./` or `/`, or names an existing directory) and the marker is nonempty,
`Parse` fails with the local-version error; consequently a successful parse
to a LocalSource can only happen with an empty marker, so no LocalSource
ever carries one. -/
theorem parse_local_marker_hard_error :
    (∀ (dirExists : String → Bool) (input : String),
      isLocalPath dirExists (splitVersion input).1 = true →
      (splitVersion input).2 ≠ "" →
      Parse dirExists input =
        .error "version specifier not supported for local paths") ∧
    (∀ (dirExists : String → Bool) (input p : String),
      Parse dirExists input = .ok (.localDir p) →
      (splitVersion input).2 = "") := by
  constructor
  · intro d input hl hm
    rw [Parse_eq, hl]
    simp [hm]
  · intro d input p h
    rw [Parse_eq] at h
    cases hl : isLocalPath d (splitVersion input).1 with
    | false => rw [hl] at h; simp at h
    | true =>
      rw [hl] at h
      by_cases hm : (splitVersion input).2 = ""
      · exact hm
      · simp [hm] at h

/-- C7 witness: both `./x@v1` and `/abs@v1` fail, via the theorem applied
at those inputs (with no directory existing on disk). -/
theorem parse_local_marker_hard_error_witness :
    Parse (fun _ => false) "./x@v1" =
      .error "version specifier not supported for local paths" ∧
    Parse (fun _ => false) "/abs@v1" =
      .error "version specifier not supported for local paths" :=
  ⟨parse_local_marker_hard_error.1 (fun _ => false) "./x@v1" (by decide) (by decide),
   parse_local_marker_hard_error.1 (fun _ => false) "/abs@v1" (by decide) (by decide)⟩

/-! ## C9 — totality of parse outside the local-marker case -/

/-- C9 counterexample: `./x` is not in the claimed error set (its marker is
empty), and it parses successfully — but to a LocalSource, not to the
RemoteSource the claim promises for every non-erroring input. -/
theorem parse_local_success_not_remote_counterexample :
    Parse (fun _ => false) "./x" = .ok (.localDir "./x") ∧
    isRemoteResult (Parse (fun _ => false) "./x") = false := by
  refine ⟨by decide, by decide⟩

/-- C9 (amended): `Parse` errors exactly on the inputs whose path part is
local while the marker is nonempty; every other input succeeds — yielding a
LocalSource of the path part when that part is local (necessarily with an
empty marker), and otherwise a RemoteSource whose URL is the expansion of
the path part with the split-off marker attached. -/
theorem parse_error_characterization :
    (∀ (dirExists : String → Bool) (input : String),
      (∃ e, Parse dirExists input = .error e) ↔
        (isLocalPath dirExists (splitVersion input).1 = true ∧
         (splitVersion input).2 ≠ "")) ∧
    (∀ (dirExists : String → Bool) (input : String),
      isLocalPath dirExists (splitVersion input).1 = false →
      Parse dirExists input =
        .ok (.gitRemote (buildGitURL (splitVersion input).1) (splitVersion input).2)) ∧
    (∀ (dirExists : String → Bool) (input : String),
      isLocalPath dirExists (splitVersion input).1 = true →
      (splitVersion input).2 = "" →
      Parse dirExists input = .ok (.localDir (splitVersion input).1)) := by
  refine ⟨?_, ?_, ?_⟩
  · intro d input
    rw [Parse_eq]
    constructor
    · rintro ⟨e, he⟩
      cases hl : isLocalPath d (splitVersion input).1 with
      | false => rw [hl] at he; simp at he
      | true =>
        rw [hl] at he
        by_cases hm : (splitVersion input).2 = ""
        · simp [hm] at he
        · exact ⟨rfl, hm⟩
    · rintro ⟨hl, hm⟩
      rw [hl]
      exact ⟨"version specifier not supported for local paths", by simp [hm]⟩
  · intro d input hl
    rw [Parse_eq, hl]
    simp
  · intro d input hl hm
    rw [Parse_eq, hl]
    simp [hm]

/-- C9 witness: the characterization applied at the concrete inputs
`a@b` (remote, marker `b`) and `./x` (local, empty marker). -/
theorem parse_error_characterization_witness :
    Parse (fun _ => false) "a@b" =
      .ok (.gitRemote (buildGitURL (splitVersion "a@b").1) (splitVersion "a@b").2) ∧
    Parse (fun _ => false) "./x" = .ok (.localDir (splitVersion "./x").1) :=
  ⟨parse_error_characterization.2.1 (fun _ => false) "a@b" (by decide),
   parse_error_characterization.2.2 (fun _ => false) "./x" (by decide) (by decide)⟩

/-! ## C2 — classification of a marker against the remote reference list -/

/-- C2 counterexample: with the branch reference listed before the
same-named tag reference, the classification is Branch, not the Tag the
claim promises regardless of list order. -/
theorem resolveRefType_branch_first_counterexample :
    resolveRefType (.ok ["refs/heads/v1", "refs/tags/v1"]) "v1" = .branch ∧
    resolveRefType (.ok ["refs/heads/v1", "refs/tags/v1"]) "v1" ≠ .tag := by
  refine ⟨by decide, by decide⟩

/-- C2 (amended): classification scans the reference list in order and
returns the kind of the first reference matching either the marker's tag
name or its branch name (the tag name is checked before the branch name
only on each single reference); hence when the marker matches a known tag
and no same-named branch reference exists the classification is Tag — but
when a name exists as both, whichever reference appears first in the list
wins.  A Tag classification makes `Fetch` perform a shallow (depth 1)
single-branch clone of that tag reference. -/
theorem resolveRefType_first_match :
    (∀ (refs : List String) (version : String),
      resolveRefType (.ok refs) version =
        (match refs.find? (fun r =>
            r == tagRefName version || r == branchRefName version) with
         | none => RefType.unknown
         | some r => if r == tagRefName version then RefType.tag else RefType.branch)) ∧
    (∀ (refs : List String) (version : String),
      tagRefName version ∈ refs → branchRefName version ∉ refs →
      resolveRefType (.ok refs) version = .tag) ∧
    (∀ (url version : String) (listResult : Except Unit (List String))
        (cloneOK : CloneOpts → Bool) (checkoutOK : String → Bool),
      version ≠ "" →
      resolveRefType listResult version = .tag →
      cloneOK ⟨url, 1, true, some (tagRefName version)⟩ = true →
      GitFetch url version listResult cloneOK checkoutOK =
        .ok [.clone ⟨url, 1, true, some (tagRefName version)⟩, .removeGitDir]) := by
  have hchar : ∀ (refs : List String) (version : String),
      resolveRefType (.ok refs) version =
        (match refs.find? (fun r =>
            r == tagRefName version || r == branchRefName version) with
         | none => RefType.unknown
         | some r => if r == tagRefName version then RefType.tag else RefType.branch) := by
    intro refs version
    induction refs with
    | nil => rfl
    | cons r rest ih =>
      show resolveRefsLoop (r :: rest) (tagRefName version) (branchRefName version) = _
      rw [resolveRefsLoop, List.find?]
      cases ht : r == tagRefName version with
      | true => simp [ht]
      | false =>
        cases hb : r == branchRefName version with
        | true => simp [ht, hb]
        | false => simpa [ht, hb] using ih
  refine ⟨hchar, ?_, ?_⟩
  · intro refs version htag hbr
    rw [hchar]
    have hfind : refs.find? (fun r =>
        r == tagRefName version || r == branchRefName version) =
        some (tagRefName version) := by
      induction refs with
      | nil => simp at htag
      | cons r rest ih =>
        rcases List.mem_cons.mp htag with heq | hmem
        · subst heq
          simp [List.find?]
        · have hbr' : branchRefName version ∉ rest :=
            fun hc => hbr (List.mem_cons_of_mem r hc)
          have hrb : (r == branchRefName version) = false := by
            simp only [beq_eq_false_iff_ne]
            rintro rfl
            exact hbr (List.mem_cons_self _ _)
          cases hrt : r == tagRefName version with
          | true =>
            simp only [beq_iff_eq] at hrt
            subst hrt
            simp [List.find?]
          | false =>
            rw [List.find?]
            simp only [hrt, hrb, Bool.or_self]
            exact ih hmem hbr'
    rw [hfind]
    simp
  · intro url version listResult cloneOK checkoutOK hv ht hc
    unfold GitFetch
    have hv' : (version == "") = false := by
      simp only [beq_eq_false_iff_ne]
      exact hv
    rw [hv']
    simp only [Bool.false_eq_true, if_false, ht, hc, if_true]

/-- C2 witness: the amended theorem's tag cases applied to the one-element
reference list `refs/tags/v1` with marker `v1`. -/
theorem resolveRefType_first_match_witness :
    resolveRefType (.ok ["refs/tags/v1"]) "v1" = .tag ∧
    GitFetch "u" "v1" (.ok ["refs/tags/v1"]) (fun _ => true) (fun _ => true) =
      .ok [.clone ⟨"u", 1, true, some (tagRefName "v1")⟩, .removeGitDir] :=
  ⟨resolveRefType_first_match.2.1 ["refs/tags/v1"] "v1" (by decide) (by decide),
   resolveRefType_first_match.2.2 "u" "v1" (.ok ["refs/tags/v1"])
     (fun _ => true) (fun _ => true) (by decide) (by decide) (by decide)⟩

/-! ## C8 — a remote-listing failure degrades to exact-revision acquisition -/

/-- C8: a failed remote listing classifies the marker as Unknown, and an
Unknown classification with a nonempty marker makes `Fetch` perform a full
(depth 0, unbounded) clone followed by an explicit checkout of the marker —
succeeding when clone and checkout succeed, so the listing error is never
propagated as the fetch result. -/
theorem listing_failure_degrades_to_revision :
    (∀ (e : Unit) (version : String),
      resolveRefType (.error e) version = .unknown) ∧
    (∀ (url version : String) (listResult : Except Unit (List String))
        (cloneOK : CloneOpts → Bool) (checkoutOK : String → Bool),
      version ≠ "" →
      resolveRefType listResult version = .unknown →
      cloneOK ⟨url, 0, false, none⟩ = true →
      checkoutOK version = true →
      GitFetch url version listResult cloneOK checkoutOK =
        .ok [.clone ⟨url, 0, false, none⟩, .checkout version, .removeGitDir]) := by
  constructor
  · intro e version
    rfl
  · intro url version listResult cloneOK checkoutOK hv hu hc hco
    unfold GitFetch
    have hv' : (version == "") = false := by
      simp only [beq_eq_false_iff_ne]
      exact hv
    rw [hv']
    simp only [Bool.false_eq_true, if_false, hu, hc, hco, if_true]

/-- C8 witness: a failing listing with marker `abc1234` and succeeding
clone/checkout oracles. -/
theorem listing_failure_degrades_to_revision_witness :
    resolveRefType (.error ()) "abc1234" = .unknown ∧
    GitFetch "u" "abc1234" (.error ()) (fun _ => true) (fun _ => true) =
      .ok [.clone ⟨"u", 0, false, none⟩, .checkout "abc1234", .removeGitDir] :=
  ⟨listing_failure_degrades_to_revision.1 () "abc1234",
   listing_failure_degrades_to_revision.2 "u" "abc1234" (.error ())
     (fun _ => true) (fun _ => true) (by decide) (by decide) (by decide) (by decide)⟩

/-! ## C3 — order-(in)dependence of variable substitution -/

/-- C3 counterexample: with variables `A → __B__` and `B → y`, the content
`__A__` substitutes to `y` in one key order and to `__B__` in the other —
the replacement value of `A` introduces the placeholder of `B`, so the
final content depends on the map's iteration order. -/
theorem replaceVars_order_dependent_counterexample :
    replaceVarsContent "__A__" [("A", "__B__"), ("B", "y")] = "y" ∧
    replaceVarsContent "__A__" [("B", "y"), ("A", "__B__")] = "__B__" ∧
    replaceVarsContent "__A__" [("A", "__B__"), ("B", "y")] ≠
      replaceVarsContent "__A__" [("B", "y"), ("A", "__B__")] := by
  refine ⟨by decide, by decide, by decide⟩

/-- C3 (amended): the substitution applies the keys sequentially in the
map's iteration order, and the final content is the same for any two
enumeration orders of the variable map provided the per-key replacement
steps commute pairwise on every content.  Without that proviso the result
is order-dependent: a key's replacement value can itself contain — or,
together with the surrounding content, form — another key's placeholder. -/
theorem replaceVars_perm_invariant_of_commuting
    (vars1 vars2 : List (String × String)) (data : String)
    (hperm : vars1.Perm vars2)
    (hcomm : ∀ p ∈ vars1, ∀ q ∈ vars1, ∀ d : String,
      replaceVarStep (replaceVarStep d p) q = replaceVarStep (replaceVarStep d q) p) :
    replaceVarsContent data vars1 = replaceVarsContent data vars2 :=
  hperm.foldl_eq' hcomm data

/-- Replacing a nonempty pattern by itself reconstructs the scanned list:
each match re-emits the pattern over the characters it consumed. -/
theorem replaceAllAux_self (pat : List Char) :
    ∀ (fuel : Nat) (s : List Char), replaceAllAux pat pat fuel s = s := by
  intro fuel
  induction fuel with
  | zero =>
    intro s
    rfl
  | succ n ih =>
    intro s
    cases s with
    | nil => rfl
    | cons c rest =>
      rw [replaceAllAux]
      by_cases hp : pat.isPrefixOf (c :: rest) = true
      · rw [if_pos hp, ih]
        have hpre : pat <+: (c :: rest) := List.isPrefixOf_iff_prefix.mp hp
        obtain ⟨t, ht⟩ := hpre
        rw [← ht, List.drop_left]
      · rw [if_neg hp, ih]

/-- Replacing any pattern by itself is the identity on every string. -/
theorem replaceAllS_self (s pat : String) : replaceAllS s pat pat = s := by
  unfold replaceAllS
  by_cases he : pat.data.isEmpty = true
  · rw [if_pos he]
  · rw [if_neg he]
    show String.mk (replaceAllAux pat.data pat.data s.data.length s.data) = s
    rw [replaceAllAux_self]

/-- A variable whose replacement value is its own placeholder substitutes
every content to itself. -/
theorem replaceVarStep_self_id (k : String) (e : String) :
    replaceVarStep e (k, placeholder k) = e :=
  replaceAllS_self e (placeholder k)

/-- C3 witness: the amended theorem at two genuinely distinct enumeration
orders of the distinct-key map `A → __A__`, `B → y`.  The key `A` keeps its
own placeholder, so its replacement step is the identity on every content —
established by `replaceVarStep_self_id`, not by evaluation — and therefore
commutes with the step of `B` on every content; both orders substitute
`__A__ __B__` to the changed content `__A__ y`. -/
theorem replaceVars_perm_invariant_witness :
    replaceVarsContent "__A__ __B__" [("A", "__A__"), ("B", "y")] =
      replaceVarsContent "__A__ __B__" [("B", "y"), ("A", "__A__")] ∧
    replaceVarsContent "__A__ __B__" [("A", "__A__"), ("B", "y")] = "__A__ y" :=
  ⟨replaceVars_perm_invariant_of_commuting
      [("A", "__A__"), ("B", "y")] [("B", "y"), ("A", "__A__")] "__A__ __B__"
      (List.Perm.swap ("B", "y") ("A", "__A__") [])
      (fun p hp q hq d => by
        have hid : ∀ e : String, replaceVarStep e ("A", "__A__") = e := fun e => by
          have h : ("A", "__A__") = ("A", placeholder "A") := rfl
          rw [h]
          exact replaceVarStep_self_id "A" e
        have hpe : p = ("A", "__A__") ∨ p = ("B", "y") := by simpa using hp
        have hqe : q = ("A", "__A__") ∨ q = ("B", "y") := by simpa using hq
        rcases hpe with rfl | rfl <;> rcases hqe with rfl | rfl
        · rfl
        · rw [hid d, hid (replaceVarStep d ("B", "y"))]
        · rw [hid d, hid (replaceVarStep d ("B", "y"))]
        · rfl),
   by decide⟩

/-! ## C1 — depth-safe path renaming on the nested-placeholder tree -/

/-- Walk order of `filepath.WalkDir` over the scenario tree rooted at `/t`
containing `a/__V__/__V__/f.go`: lexical, parents before children. -/
def scenarioWalk : List String :=
  ["/t", "/t/a", "/t/a/__V__", "/t/a/__V__/__V__", "/t/a/__V__/__V__/f.go"]

/-- The scenario's variable map, `V = x`. -/
def scenarioVars : List (String × String) :=
  [("V", "x")]

/-- The scenario's initial filesystem: exactly the walked paths. -/
def scenarioFs : List String :=
  scenarioWalk

/-- The scenario's filesystem after both renames. -/
def scenarioFinalFs : List String :=
  ["/t", "/t/a", "/t/a/x", "/t/a/x/x", "/t/a/x/x/f.go"]

/-- C1: on the tree `a/__V__/__V__/f.go` with `V = x`, the collection walk
records exactly the two directory renames, and for either enumeration order
of that two-element rename map (its elements are distinct, so these are all
permutations), the deepest-first application succeeds with no intermediate
mis-rename (every `os.Rename` finds its source, hence the result is not
`none`), reports exactly the two renames in application order relative to
the root, and leaves the tree containing `a/x/x/f.go`. -/
theorem renamePaths_depth_safe (pending : List (String × String))
    (h : pending = [("/t/a/__V__", "/t/a/x"), ("/t/a/__V__/__V__", "/t/a/__V__/x")] ∨
         pending = [("/t/a/__V__/__V__", "/t/a/__V__/x"), ("/t/a/__V__", "/t/a/x")]) :
    collectPathsToRename scenarioWalk scenarioVars =
      [("/t/a/__V__", "/t/a/x"), ("/t/a/__V__/__V__", "/t/a/__V__/x")] ∧
    RenamePaths "/t" scenarioVars pending scenarioFs =
      some (["a/__V__/__V__ → a/__V__/x", "a/__V__ → a/x"], scenarioFinalFs) ∧
    scenarioFinalFs.contains "/t/a/x/x/f.go" = true ∧
    ["a/__V__/__V__ → a/__V__/x", "a/__V__ → a/x"].length = 2 := by
  rcases h with h | h <;> subst h <;> exact ⟨by decide, by decide, by decide, by decide⟩

/-- C1 witness: the theorem at the first enumeration order of the collected
rename map. -/
theorem renamePaths_depth_safe_witness :
    collectPathsToRename scenarioWalk scenarioVars =
      [("/t/a/__V__", "/t/a/x"), ("/t/a/__V__/__V__", "/t/a/__V__/x")] ∧
    RenamePaths "/t" scenarioVars
        [("/t/a/__V__", "/t/a/x"), ("/t/a/__V__/__V__", "/t/a/__V__/x")] scenarioFs =
      some (["a/__V__/__V__ → a/__V__/x", "a/__V__ → a/x"], scenarioFinalFs) ∧
    scenarioFinalFs.contains "/t/a/x/x/f.go" = true ∧
    ["a/__V__/__V__ → a/__V__/x", "a/__V__ → a/x"].length = 2 :=
  renamePaths_depth_safe
    [("/t/a/__V__", "/t/a/x"), ("/t/a/__V__/__V__", "/t/a/__V__/x")] (Or.inl rfl)

/-! ## Walk-preservation lemmas for the tree rewrites -/

/-- Relation between an input file and the corresponding output file of a
walk: the path is untouched, the mode is untouched, and when the `keep`
condition on the path holds the file is untouched entirely. -/
def Preserves (keep : List String → Bool) (f f' : Rewrite.FsFile) : Prop :=
  f.path = f'.path ∧ f'.mode = f.mode ∧ (keep f.path = true → f' = f)

theorem preserves_refl (keep : List String → Bool) (l : List Rewrite.FsFile) :
    List.Forall₂ (Preserves keep) l l := by
  induction l with
  | nil => exact List.Forall₂.nil
  | cons f rest ih => exact List.Forall₂.cons ⟨rfl, rfl, fun _ => rfl⟩ ih

/-- Path-and-mode preservation, the transitive core used to compose two
walks. -/
def PathModeEq (f f' : Rewrite.FsFile) : Prop :=
  f.path = f'.path ∧ f'.mode = f.mode

theorem pathModeEq_trans {a b c : List Rewrite.FsFile} :
    List.Forall₂ PathModeEq a b → List.Forall₂ PathModeEq b c →
    List.Forall₂ PathModeEq a c := by
  intro h1
  induction h1 generalizing c with
  | nil =>
    intro h2
    cases h2
    exact List.Forall₂.nil
  | cons hab _ ih =>
    intro h2
    cases h2 with
    | cons hbc h2' =>
      exact List.Forall₂.cons ⟨hab.1.trans hbc.1, hbc.2.trans hab.2⟩ (ih h2')

theorem preserves_imp_pathModeEq (keep : List String → Bool)
    {a b : List Rewrite.FsFile} (h : List.Forall₂ (Preserves keep) a b) :
    List.Forall₂ PathModeEq a b :=
  h.imp (fun _ _ hp => ⟨hp.1, hp.2.1⟩)

/-- The `.go` walk of the Identifier Rewriter preserves every file's path
and mode and leaves every file under a `vendor` directory untouched. -/
theorem rewriteGoFiles_preserves (files : List Rewrite.FsFile) (oldM newM : String)
    {ms : List String} {fs' : List Rewrite.FsFile}
    (h : Rewrite.rewriteGoFiles files oldM newM = .ok (ms, fs')) :
    List.Forall₂ (Preserves (fun p => underDir "vendor" p)) files fs' := by
  induction files generalizing ms fs' with
  | nil =>
    rw [Rewrite.rewriteGoFiles] at h
    injection h with h'
    injection h' with h1 h2
    subst h2
    exact List.Forall₂.nil
  | cons f rest ih =>
    by_cases hv : underDir "vendor" f.path = true
    · cases hr : Rewrite.rewriteGoFiles rest oldM newM with
      | error e =>
        rw [Rewrite.rewriteGoFiles, if_pos hv, hr] at h
        exact Except.noConfusion h
      | ok pr =>
        obtain ⟨ms0, fs0⟩ := pr
        rw [Rewrite.rewriteGoFiles, if_pos hv, hr] at h
        injection h with h'
        injection h' with h1 h2
        subst h2
        exact List.Forall₂.cons ⟨rfl, rfl, fun _ => rfl⟩ (ih hr)
    · cases hgo : strEndsWith (Rewrite.lastSeg f.path) ".go" with
      | true =>
        have hskip : ¬((!strEndsWith (Rewrite.lastSeg f.path) ".go") = true) := by
          rw [hgo]
          simp
        cases hw : Rewrite.rewriteGoFile f.content oldM newM with
        | error e =>
          rw [Rewrite.rewriteGoFiles, if_neg hv, if_neg hskip, hw] at h
          exact Except.noConfusion h
        | ok mc =>
          obtain ⟨modified, c'⟩ := mc
          cases hr : Rewrite.rewriteGoFiles rest oldM newM with
          | error e =>
            rw [Rewrite.rewriteGoFiles, if_neg hv, if_neg hskip, hw, hr] at h
            exact Except.noConfusion h
          | ok pr =>
            obtain ⟨ms0, fs0⟩ := pr
            cases modified with
            | true =>
              rw [Rewrite.rewriteGoFiles, if_neg hv, if_neg hskip, hw, hr] at h
              injection h with h'
              injection h' with h1 h2
              subst h2
              exact List.Forall₂.cons
                ⟨rfl, rfl, fun hk => absurd hk hv⟩ (ih hr)
            | false =>
              rw [Rewrite.rewriteGoFiles, if_neg hv, if_neg hskip, hw, hr] at h
              injection h with h'
              injection h' with h1 h2
              subst h2
              exact List.Forall₂.cons ⟨rfl, rfl, fun _ => rfl⟩ (ih hr)
      | false =>
        have hskip : (!strEndsWith (Rewrite.lastSeg f.path) ".go") = true := by
          rw [hgo]
          simp
        cases hr : Rewrite.rewriteGoFiles rest oldM newM with
        | error e =>
          rw [Rewrite.rewriteGoFiles, if_neg hv, if_pos hskip, hr] at h
          exact Except.noConfusion h
        | ok pr =>
          obtain ⟨ms0, fs0⟩ := pr
          rw [Rewrite.rewriteGoFiles, if_neg hv, if_pos hskip, hr] at h
          injection h with h'
          injection h' with h1 h2
          subst h2
          exact List.Forall₂.cons ⟨rfl, rfl, fun _ => rfl⟩ (ih hr)

/-- The extra-pattern walk preserves every file's path and mode and leaves
every file under a `vendor` or `.git` directory untouched. -/
theorem rewriteExtraFiles_preserves (files : List Rewrite.FsFile)
    (oldM newM : String) (pats : List String) :
    List.Forall₂ (Preserves (fun p => underDir "vendor" p || underDir ".git" p))
      files (Rewrite.rewriteExtraFiles files oldM newM pats).2 := by
  induction files with
  | nil => exact List.Forall₂.nil
  | cons f rest ih =>
    simp only [Rewrite.rewriteExtraFiles, List.foldr] at ih ⊢
    by_cases hsv : (underDir "vendor" f.path || underDir ".git" f.path) = true
    · rw [if_pos hsv]
      exact List.Forall₂.cons ⟨rfl, rfl, fun _ => rfl⟩ ih
    · rw [if_neg hsv]
      cases hmp : Rewrite.matchesFilePattern (Rewrite.lastSeg f.path)
          (Rewrite.parseFilePatterns pats) with
      | false => exact List.Forall₂.cons ⟨rfl, rfl, fun _ => rfl⟩ ih
      | true =>
        cases hw : Rewrite.rewriteTextFile f.content oldM newM with
        | mk modified c' =>
          cases modified with
          | true => exact List.Forall₂.cons ⟨rfl, rfl, fun hk => absurd hk hsv⟩ ih
          | false => exact List.Forall₂.cons ⟨rfl, rfl, fun _ => rfl⟩ ih

/-- The Variable Substituter's walk preserves every file's path and mode and
leaves every file under a `vendor` or `.git` directory untouched. -/
theorem variables_preserves (files : List Rewrite.FsFile)
    (vars : List (String × String)) (pats : List String) :
    List.Forall₂ (Preserves (fun p => underDir "vendor" p || underDir ".git" p))
      files (Rewrite.Variables files vars pats).2 := by
  by_cases hv : vars.isEmpty = true
  · simp only [Rewrite.Variables, if_pos hv]
    exact preserves_refl _ files
  · simp only [Rewrite.Variables, if_neg hv]
    induction files with
    | nil => exact List.Forall₂.nil
    | cons f rest ih =>
      simp only [List.foldr] at ih ⊢
      by_cases hsv : (underDir "vendor" f.path || underDir ".git" f.path) = true
      · rw [if_pos hsv]
        exact List.Forall₂.cons ⟨rfl, rfl, fun _ => rfl⟩ ih
      · rw [if_neg hsv]
        cases hmp : Rewrite.matchesFilePattern (Rewrite.lastSeg f.path)
            (Rewrite.parseFilePatterns pats ++ ["go"]) with
        | false => exact List.Forall₂.cons ⟨rfl, rfl, fun _ => rfl⟩ ih
        | true =>
          cases hw : Rewrite.replaceVariablesInFile f.content vars with
          | mk modified c' =>
            cases modified with
            | true => exact List.Forall₂.cons ⟨rfl, rfl, fun hk => absurd hk hsv⟩ ih
            | false => exact List.Forall₂.cons ⟨rfl, rfl, fun _ => rfl⟩ ih

/-- Case analysis of a successful `Module` run: either the declared module
already equals the new one (no-op), or the manifest is rewritten to the new
module with the fixed mode `0o600` while every other file keeps its path and
mode. -/
theorem Module_ok_cases (s : Rewrite.ModState) (X : String) (extra : List String)
    {l : List String} {s' : Rewrite.ModState}
    (h : Rewrite.Module s X extra = .ok (l, s')) :
    (s.goModModule = X ∧ l = [] ∧ s' = s) ∨
    (s.goModModule ≠ X ∧ s'.goModModule = X ∧ s'.goModMode = 0o600 ∧
      List.Forall₂ PathModeEq s.files s'.files) := by
  cases hbe : s.goModModule == X with
  | true =>
    rw [Rewrite.Module, if_pos hbe] at h
    injection h with h'
    injection h' with h1 h2
    exact Or.inl ⟨beq_iff_eq.mp hbe, h1.symm, h2.symm⟩
  | false =>
    have hne : s.goModModule ≠ X := by
      simp only [beq_eq_false_iff_ne] at hbe
      exact hbe
    rw [Rewrite.Module, if_neg (by simp [hbe])] at h
    cases hr : Rewrite.rewriteGoFiles s.files s.goModModule X with
    | error e =>
      rw [hr] at h
      exact Except.noConfusion h
    | ok pr =>
      obtain ⟨goFiles, files1⟩ := pr
      rw [hr] at h
      injection h with h'
      injection h' with h1 h2
      have hpm1 : List.Forall₂ PathModeEq s.files files1 :=
        preserves_imp_pathModeEq _ (rewriteGoFiles_preserves s.files s.goModModule X hr)
      subst h2
      refine Or.inr ⟨hne, rfl, rfl, ?_⟩
      by_cases he : extra.length > 0
      · have hpm2 : List.Forall₂ PathModeEq files1
            (Rewrite.rewriteExtraFiles files1 s.goModModule X extra).2 :=
          preserves_imp_pathModeEq _
            (rewriteExtraFiles_preserves files1 s.goModModule X extra)
        simp only [if_pos he]
        exact pathModeEq_trans hpm1 hpm2
      · simp only [if_neg he]
        exact pathModeEq_trans hpm1
          (preserves_imp_pathModeEq (fun _ => false) (preserves_refl _ files1))

/-! ## C5 — identifier rewriting is idempotent -/

/-- C5: after any successful `Module` run with new module `X`, running
`Module` again with `X` is a no-op — the manifest now declares `X`, so the
second run returns an empty modified-file list, no error, and leaves the
state (hence every file) untouched. -/
theorem module_idempotent (s : Rewrite.ModState) (X : String) (extra : List String)
    (l : List String) (s' : Rewrite.ModState)
    (h : Rewrite.Module s X extra = .ok (l, s')) :
    Rewrite.Module s' X extra = .ok ([], s') := by
  have hX : s'.goModModule = X := by
    rcases Module_ok_cases s X extra h with ⟨h1, _, h3⟩ | ⟨_, h2, _, _⟩
    · rw [h3]
      exact h1
    · exact h2
  rw [Rewrite.Module, if_pos (beq_iff_eq.mpr hX)]

/-- C5 witness: a concrete run renaming module `old/mod` to `new/mod` over
one source file, then the second run is a no-op. -/
theorem module_idempotent_witness :
    Rewrite.Module
      ⟨"new/mod", 0o600,
        [⟨["main.go"], .goSrc ["new/mod/pkg"] "package main", 420⟩]⟩
      "new/mod" [] =
      .ok ([], ⟨"new/mod", 0o600,
        [⟨["main.go"], .goSrc ["new/mod/pkg"] "package main", 420⟩]⟩) :=
  module_idempotent
    ⟨"old/mod", 420, [⟨["main.go"], .goSrc ["old/mod/pkg"] "package main", 420⟩]⟩
    "new/mod" [] ["go.mod", "main.go"]
    ⟨"new/mod", 0o600, [⟨["main.go"], .goSrc ["new/mod/pkg"] "package main", 420⟩]⟩
    (by decide)

/-! ## C10 — permission-bit asymmetry of the rewrites -/

/-- C10: whenever `Module` actually rewrites (the declared module differs
from the new one), the manifest is written with the fixed mode `0o600`
regardless of its original mode; every other file touched by the rewrite
pipeline — the `.go` walk, the extra-pattern walk, and the Variable
Substituter — keeps its original permission bits. -/
theorem mode_bits_asymmetric :
    (∀ (s : Rewrite.ModState) (X : String) (extra l : List String)
        (s' : Rewrite.ModState),
      Rewrite.Module s X extra = .ok (l, s') → s.goModModule ≠ X →
      s'.goModMode = 0o600) ∧
    (∀ (s : Rewrite.ModState) (X : String) (extra l : List String)
        (s' : Rewrite.ModState),
      Rewrite.Module s X extra = .ok (l, s') →
      List.Forall₂ PathModeEq s.files s'.files) ∧
    (∀ (files : List Rewrite.FsFile) (vars : List (String × String))
        (pats : List String),
      List.Forall₂ PathModeEq files (Rewrite.Variables files vars pats).2) := by
  refine ⟨?_, ?_, ?_⟩
  · intro s X extra l s' h hne
    rcases Module_ok_cases s X extra h with ⟨h1, _, _⟩ | ⟨_, _, h3, _⟩
    · exact absurd h1 hne
    · exact h3
  · intro s X extra l s' h
    rcases Module_ok_cases s X extra h with ⟨_, _, h3⟩ | ⟨_, _, _, h4⟩
    · rw [h3]
      exact preserves_imp_pathModeEq (fun _ => false) (preserves_refl _ s.files)
    · exact h4
  · intro files vars pats
    exact preserves_imp_pathModeEq _ (variables_preserves files vars pats)

/-- C10 witness: a run whose manifest starts at mode `0o644` ends at
`0o600`, and a concrete source file and variable-substituted file keep
their modes. -/
theorem mode_bits_asymmetric_witness :
    ((⟨"new/mod", 0o600,
        [⟨["main.go"], .goSrc ["new/mod/pkg"] "package main", 493⟩]⟩ :
          Rewrite.ModState).goModMode = 0o600) ∧
    List.Forall₂ PathModeEq
      [⟨["main.go"], .goSrc ["old/mod/pkg"] "package main", 493⟩]
      [⟨["main.go"], .goSrc ["new/mod/pkg"] "package main", 493⟩] ∧
    List.Forall₂ PathModeEq
      [⟨["a.go"], .text "__V__", 493⟩]
      (Rewrite.Variables [⟨["a.go"], .text "__V__", 493⟩] [("V", "x")] []).2 :=
  ⟨mode_bits_asymmetric.1
      ⟨"old/mod", 420, [⟨["main.go"], .goSrc ["old/mod/pkg"] "package main", 493⟩]⟩
      "new/mod" [] ["go.mod", "main.go"]
      ⟨"new/mod", 0o600, [⟨["main.go"], .goSrc ["new/mod/pkg"] "package main", 493⟩]⟩
      (by decide) (by decide),
   mode_bits_asymmetric.2.1
      ⟨"old/mod", 420, [⟨["main.go"], .goSrc ["old/mod/pkg"] "package main", 493⟩]⟩
      "new/mod" [] ["go.mod", "main.go"]
      ⟨"new/mod", 0o600, [⟨["main.go"], .goSrc ["new/mod/pkg"] "package main", 493⟩]⟩
      (by decide),
   mode_bits_asymmetric.2.2 [⟨["a.go"], .text "__V__", 493⟩] [("V", "x")] []⟩

/-! ## C4 — pruning of vendor and metadata directories -/

/-- C4 counterexample: the native-source-file walk does not prune the
`.git` metadata directory — a Go source file inside `.git` importing the
old module is visited, rewritten, and reported as modified. -/
theorem goWalk_rewrites_inside_git_counterexample :
    Rewrite.rewriteGoFiles
      [⟨[".git", "a.go"], .goSrc ["old/mod"] "package a", 420⟩]
      "old/mod" "new/mod" =
      .ok ([".git/a.go"],
        [⟨[".git", "a.go"], .goSrc ["new/mod"] "package a", 420⟩]) ∧
    underDir ".git" [".git", "a.go"] = true := by
  refine ⟨by decide, by decide⟩

/-- C4 (amended): both walks of the Identifier Rewriter prune every
directory named `vendor`, so no file under one is ever modified, for every
tree, identifier and pattern set; the extra-pattern walk additionally
prunes the `.git` metadata directory — but the native-source-file walk does
not, so only files under `vendor` (not under `.git`) are protected from
it. -/
theorem identifier_rewriter_prunes_vendor :
    (∀ (files : List Rewrite.FsFile) (oldM newM : String) (ms : List String)
        (fs' : List Rewrite.FsFile),
      Rewrite.rewriteGoFiles files oldM newM = .ok (ms, fs') →
      List.Forall₂
        (fun f f' => f.path = f'.path ∧ (underDir "vendor" f.path = true → f' = f))
        files fs') ∧
    (∀ (files : List Rewrite.FsFile) (oldM newM : String) (pats : List String),
      List.Forall₂
        (fun f f' => f.path = f'.path ∧
          ((underDir "vendor" f.path || underDir ".git" f.path) = true → f' = f))
        files (Rewrite.rewriteExtraFiles files oldM newM pats).2) := by
  constructor
  · intro files oldM newM ms fs' h
    exact (rewriteGoFiles_preserves files oldM newM h).imp
      (fun _ _ hp => ⟨hp.1, hp.2.2⟩)
  · intro files oldM newM pats
    exact (rewriteExtraFiles_preserves files oldM newM pats).imp
      (fun _ _ hp => ⟨hp.1, hp.2.2⟩)

/-- C4 witness: a vendored source file referencing the old module passes
through both walks untouched. -/
theorem identifier_rewriter_prunes_vendor_witness :
    List.Forall₂
      (fun f f' => f.path = f'.path ∧
        (underDir "vendor" f.path = true → f' = f))
      ([⟨["vendor", "b.go"], .goSrc ["old/mod"] "package b", 420⟩] :
        List Rewrite.FsFile)
      [⟨["vendor", "b.go"], .goSrc ["old/mod"] "package b", 420⟩] ∧
    List.Forall₂
      (fun f f' => f.path = f'.path ∧
        ((underDir "vendor" f.path || underDir ".git" f.path) = true → f' = f))
      ([⟨["vendor", "note.md"], .text "old/mod", 420⟩] : List Rewrite.FsFile)
      (Rewrite.rewriteExtraFiles
        [⟨["vendor", "note.md"], .text "old/mod", 420⟩] "old/mod" "new/mod" ["md"]).2 :=
  ⟨identifier_rewriter_prunes_vendor.1
      [⟨["vendor", "b.go"], .goSrc ["old/mod"] "package b", 420⟩]
      "old/mod" "new/mod" []
      [⟨["vendor", "b.go"], .goSrc ["old/mod"] "package b", 420⟩]
      (by decide),
   identifier_rewriter_prunes_vendor.2
      [⟨["vendor", "note.md"], .text "old/mod", 420⟩] "old/mod" "new/mod" ["md"]⟩
